import Mathlib

/-!
Verification of the `match-document-filename` rule
(`src/packages/plugin/src/rules/match-document-filename.ts`).

The rule handler (`Document(documentNode)`) is embedded as a pure function
from the rule configuration, the file's actual extension and basename, and
the document's definition list, to the list of emitted diagnostics.
The case converter (`convertCase` from `../utils`) is not part of the
provided sources, so it is modelled from the spec (§4.3).
-/

/-- The six case styles of `CASE_STYLES` (`match-document-filename.ts`,
lines 15-22): the five `_CaseStyle` values from `../utils` plus
`'matchDocumentStyle'`. -/
inductive CaseStyle where
  | camelCase
  | PascalCase
  | snake_case
  | UPPER_CASE
  | kebab_case
  | matchDocumentStyle
deriving DecidableEq

/-- Modelled from the spec (§4.3): the word separators the tokenizer
splits on, besides case boundaries: the characters `_`, `-` and `.`. -/
def isSeparator (c : Char) : Bool := c = '_' || c = '-' || c = '.'

/-- Modelled from the spec (§4.3): split a character list on separator
characters, keeping the (possibly empty) chunks between them. -/
def splitOnSeparators : List Char → List (List Char)
  | [] => [[]]
  | c :: rest =>
    if isSeparator c then [] :: splitOnSeparators rest
    else
      match splitOnSeparators rest with
      | [] => [[c]]
      | chunk :: chunks => (c :: chunk) :: chunks

/-- Modelled from the spec (§4.3): a case boundary sits right before an
uppercase character `c` when the previous character is lowercase
(lower-to-upper boundary), or when the previous character is uppercase and
the next one is lowercase (acronym boundary, e.g. `HTTPServer` →
`HTTP`/`Server`). -/
def caseBoundary (prev c : Char) (rest : List Char) : Bool :=
  c.isUpper &&
    (prev.isLower ||
      (prev.isUpper &&
        (match rest.head? with
         | some nxt => nxt.isLower
         | none => false)))

/-- Helper for `splitCase`: `prev` is the character just before `rest`,
`acc` the current (nonempty) token being built. -/
def splitCaseAux (prev : Char) (acc : List Char) : List Char → List (List Char)
  | [] => [acc]
  | c :: rest =>
    if caseBoundary prev c rest then acc :: splitCaseAux c [c] rest
    else splitCaseAux c (acc ++ [c]) rest

/-- Modelled from the spec (§4.3): split a separator-free chunk at its
case boundaries. -/
def splitCase : List Char → List (List Char)
  | [] => []
  | c :: rest => splitCaseAux c [c] rest

/-- Modelled from the spec (§4.3): full tokenization — split on the
separators `_`, `-`, `.` and on case boundaries. -/
def tokenize (s : List Char) : List (List Char) :=
  ((splitOnSeparators s).map splitCase).flatten

/-- Lowercase every character of a word. -/
def lowerWord (w : List Char) : List Char := w.map Char.toLower

/-- Uppercase every character of a word. -/
def upperWord (w : List Char) : List Char := w.map Char.toUpper

/-- Capitalize a word: first character uppercased, the rest lowercased
(the rule's own example converts `DELETE_USER` to `DeleteUser` under
`PascalCase`, so capitalization lowercases the tail of each word). -/
def capitalizeWord : List Char → List Char
  | [] => []
  | c :: rest => Char.toUpper c :: rest.map Char.toLower

/-- Join words with a separator character. -/
def joinSep (sep : Char) : List (List Char) → List Char
  | [] => []
  | [w] => w
  | w :: ws => w ++ sep :: joinSep sep ws

/-- Camel-case join: first word lowercased, subsequent words capitalized,
concatenated (spec §4.3). -/
def camelJoinWords : List (List Char) → List Char
  | [] => []
  | w :: ws => lowerWord w ++ (ws.map capitalizeWord).flatten

/-- Modelled from the spec (§4.3): `convertCase` from `../utils` (not part
of the provided sources). Tokenizes the name and re-joins per style;
`matchDocumentStyle` is the identity. -/
def convertCase (style : CaseStyle) (name : String) : String :=
  match style with
  | .camelCase => ⟨camelJoinWords (tokenize name.data)⟩
  | .PascalCase => ⟨((tokenize name.data).map capitalizeWord).flatten⟩
  | .snake_case => ⟨joinSep '_' ((tokenize name.data).map lowerWord)⟩
  | .UPPER_CASE => ⟨joinSep '_' ((tokenize name.data).map upperWord)⟩
  | .kebab_case => ⟨joinSep '-' ((tokenize name.data).map lowerWord)⟩
  | .matchDocumentStyle => name

/-- `PropertySchema` (lines 24-28): `{style?, suffix?, prefix?}`.
`prefix` is a reserved word in Lean, hence the field name `prefix_`. -/
structure PropertySchema where
  style : Option CaseStyle := none
  suffix : Option String := none
  prefix_ : Option String := none
deriving DecidableEq

/-- One configured value for a document type: either a bare style string
or a `PropertySchema` object (`CaseStyle | PropertySchema`, lines 32-35). -/
inductive RuleOption where
  | asString (style : CaseStyle)
  | asObject (schema : PropertySchema)
deriving DecidableEq

/-- `MatchDocumentFilenameRuleConfig` (lines 30-36). -/
structure MatchDocumentFilenameRuleConfig where
  fileExtension : Option String := none
  query : Option RuleOption := none
  mutation : Option RuleOption := none
  subscription : Option RuleOption := none
  fragment : Option RuleOption := none
deriving DecidableEq

/-- The two diagnostic message ids (lines 10-11). -/
inductive MessageId where
  | MATCH_EXTENSION
  | MATCH_STYLE
deriving DecidableEq

/-- A source location (line/column pair). -/
structure SourceLocation where
  line : Nat
  column : Nat
deriving DecidableEq

/-- Modelled from the spec (§4.5): `REPORT_ON_FIRST_CHARACTER` from
`../utils` (not part of the provided sources) — diagnostics are anchored
at the document's first character. -/
def REPORT_ON_FIRST_CHARACTER : SourceLocation := { line := 1, column := 0 }

/-- One reported diagnostic: message id, location, and the `data`
interpolation parameters in object-literal order. -/
structure Diagnostic where
  messageId : MessageId
  loc : SourceLocation
  data : List (String × String)
deriving DecidableEq

/-- Operation kinds of an `OperationDefinitionNode`. -/
inductive OperationType where
  | query
  | mutation
  | subscription
deriving DecidableEq

/-- A top-level definition of a document: an operation definition, a
fragment definition, or any other definition kind (e.g. a type
definition), which the rule ignores. -/
inductive Definition where
  | operationDefinition (operation : OperationType) (name : Option String)
  | fragmentDefinition (name : String)
  | otherDefinition
deriving DecidableEq

/-- `n.kind === Kind.OPERATION_DEFINITION` (line 222). -/
def isOperationDefinition : Definition → Bool
  | .operationDefinition _ _ => true
  | _ => false

/-- `n.kind === Kind.FRAGMENT_DEFINITION` (line 225). -/
def isFragmentDefinition : Definition → Bool
  | .fragmentDefinition _ => true
  | _ => false

/-- `node.name?.value` (line 233): operations may be anonymous; a
fragment definition always carries a name. -/
def definitionName : Definition → Option String
  | .operationDefinition _ name => name
  | .fragmentDefinition name => some name
  | .otherDefinition => none

/-- The four per-type configuration slots. -/
inductive DocType where
  | query
  | mutation
  | subscription
  | fragment
deriving DecidableEq

/-- `'operation' in node ? node.operation : 'fragment'` (line 238): a
node with an `operation` property yields its operation kind, any other
node yields `'fragment'`. -/
def definitionDocType : Definition → DocType
  | .operationDefinition .query _ => .query
  | .operationDefinition .mutation _ => .mutation
  | .operationDefinition .subscription _ => .subscription
  | .fragmentDefinition _ => .fragment
  | .otherDefinition => .fragment

/-- `options[docType]` (line 240). -/
def getDocTypeOption (options : MatchDocumentFilenameRuleConfig) : DocType → Option RuleOption
  | .query => options.query
  | .mutation => options.mutation
  | .subscription => options.subscription
  | .fragment => options.fragment

/-- Lines 246-248: a bare style string is wrapped as `{style: option}`;
an object is used unchanged. -/
def normalizeOption : RuleOption → PropertySchema
  | .asString style => { style := some style }
  | .asObject schema => schema

/-- JavaScript `a || b` on an optional string: the default is used when
the option is absent or the empty string (falsy). -/
def jsOrString : Option String → String → String
  | some s, d => if s = "" then d else s
  | none, d => d

/-- Lines 250-257: `expectedFilename` — prefix, then the styled document
name (identity for `matchDocumentStyle`) or, with no style configured,
the file's existing basename, then suffix and extension. -/
def buildExpectedFilename (option : PropertySchema) (docName filename expectedExtension : String) : String :=
  let base : String :=
    match option.style with
    | some style => if style = .matchDocumentStyle then docName else convertCase style docName
    | none => filename
  (jsOrString option.prefix_ "") ++ base ++ (jsOrString option.suffix "") ++ expectedExtension

/-- Lines 210-219: the extension check. Fires when `options.fileExtension`
is truthy and differs from the actual extension. -/
def extensionCheck (options : MatchDocumentFilenameRuleConfig) (fileExtension : String) : List Diagnostic :=
  match options.fileExtension with
  | some configured =>
    if configured ≠ "" ∧ configured ≠ fileExtension then
      [{ messageId := .MATCH_EXTENSION,
         loc := REPORT_ON_FIRST_CHARACTER,
         data := [("fileExtension", fileExtension), ("expectedFileExtension", configured)] }]
    else []
  | none => []

/-- Lines 221-228: `firstOperation || firstFragment` — the first
operation definition in document order if any, else the first fragment
definition. -/
def selectGoverningDefinition (documentNode : List Definition) : Option Definition :=
  (documentNode.find? isOperationDefinition) <|> (documentNode.find? isFragmentDefinition)

/-- Lines 221-269: the style check — early returns for a missing node, a
falsy name, and an unconfigured document type; otherwise compares
`expectedFilename` against `filename + expectedExtension`. -/
def styleCheck (options : MatchDocumentFilenameRuleConfig)
    (fileExtension filename : String) (documentNode : List Definition) : List Diagnostic :=
  match selectGoverningDefinition documentNode with
  | none => []
  | some node =>
    match definitionName node with
    | none => []
    | some docName =>
      if docName = "" then []
      else
        match getDocTypeOption options (definitionDocType node) with
        | none => []
        | some rawOption =>
          let option := normalizeOption rawOption
          let expectedExtension := jsOrString options.fileExtension fileExtension
          let expectedFilename := buildExpectedFilename option docName filename expectedExtension
          let filenameWithExtension := filename ++ expectedExtension
          if expectedFilename ≠ filenameWithExtension then
            [{ messageId := .MATCH_STYLE,
               loc := REPORT_ON_FIRST_CHARACTER,
               data := [("expectedFilename", expectedFilename), ("filename", filenameWithExtension)] }]
          else []

/-- The `Document(documentNode)` handler (lines 209-270): the extension
check reports first, then the style check. `fileExtension` and `filename`
are `extname(filePath)` and `basename(filePath, fileExtension)`. -/
def documentRule (options : MatchDocumentFilenameRuleConfig)
    (fileExtension filename : String) (documentNode : List Definition) : List Diagnostic :=
  extensionCheck options fileExtension ++ styleCheck options fileExtension filename documentNode


theorem char_toNat_ofNat {n : Nat} (h : n < 55296) : (Char.ofNat n).toNat = n := by
  have hv : n.isValidChar := Or.inl h
  simp [Char.ofNat, hv, Char.ofNatAux, Char.toNat, UInt32.toNat]

theorem charIsUpper_iff (c : Char) : c.isUpper = true ↔ 65 ≤ c.toNat ∧ c.toNat ≤ 90 := by
  simp [Char.isUpper, UInt32.le_def, BitVec.le_def, Char.toNat, UInt32.toNat]

theorem charIsLower_iff (c : Char) : c.isLower = true ↔ 97 ≤ c.toNat ∧ c.toNat ≤ 122 := by
  simp [Char.isLower, UInt32.le_def, BitVec.le_def, Char.toNat, UInt32.toNat]

theorem char_eq_iff_toNat (c d : Char) : c = d ↔ c.toNat = d.toNat := by
  constructor
  · intro h; rw [h]
  · intro h
    apply Char.eq_of_val_eq
    apply UInt32.eq_of_toBitVec_eq
    apply BitVec.eq_of_toNat_eq
    exact h

theorem char_toLower_def (c : Char) :
    c.toLower = if 65 ≤ c.toNat ∧ c.toNat ≤ 90 then Char.ofNat (c.toNat + 32) else c := rfl

theorem char_toUpper_def (c : Char) :
    c.toUpper = if 97 ≤ c.toNat ∧ c.toNat ≤ 122 then Char.ofNat (c.toNat - 32) else c := rfl

theorem charIsSeparator_iff (c : Char) :
    isSeparator c = true ↔ c.toNat = 95 ∨ c.toNat = 45 ∨ c.toNat = 46 := by
  simp [isSeparator, char_eq_iff_toNat]
  omega

theorem char_toLower_of_not_upper {c : Char} (h : c.isUpper = false) : c.toLower = c := by
  rw [char_toLower_def, if_neg]
  intro hc
  rw [← charIsUpper_iff] at hc
  rw [h] at hc
  exact Bool.false_ne_true hc

theorem char_toNat_toLower_of_upper {c : Char} (h : c.isUpper = true) :
    c.toLower.toNat = c.toNat + 32 := by
  rw [charIsUpper_iff] at h
  rw [char_toLower_def, if_pos h, char_toNat_ofNat (by omega)]

theorem char_isUpper_toLower (c : Char) : c.toLower.isUpper = false := by
  by_cases h : c.isUpper = true
  · have := char_toNat_toLower_of_upper h
    rw [charIsUpper_iff] at h
    rw [← Bool.not_eq_true, charIsUpper_iff]
    omega
  · rw [char_toLower_of_not_upper (Bool.not_eq_true _ |>.mp h)]
    exact Bool.not_eq_true _ |>.mp h

theorem char_toLower_toLower (c : Char) : c.toLower.toLower = c.toLower :=
  char_toLower_of_not_upper (char_isUpper_toLower c)

theorem char_isSeparator_toLower {c : Char} (h : isSeparator c = false) :
    isSeparator c.toLower = false := by
  by_cases hu : c.isUpper = true
  · have := char_toNat_toLower_of_upper hu
    rw [charIsUpper_iff] at hu
    rw [← Bool.not_eq_true, charIsSeparator_iff]
    omega
  · rwa [char_toLower_of_not_upper (Bool.not_eq_true _ |>.mp hu)]

theorem char_toUpper_of_not_lower {c : Char} (h : c.isLower = false) : c.toUpper = c := by
  rw [char_toUpper_def, if_neg]
  intro hc
  rw [← charIsLower_iff] at hc
  rw [h] at hc
  exact Bool.false_ne_true hc

theorem char_toNat_toUpper_of_lower {c : Char} (h : c.isLower = true) :
    c.toUpper.toNat = c.toNat - 32 := by
  rw [charIsLower_iff] at h
  rw [char_toUpper_def, if_pos h, char_toNat_ofNat (by omega)]

theorem char_isLower_toUpper (c : Char) : c.toUpper.isLower = false := by
  by_cases h : c.isLower = true
  · have h2 := char_toNat_toUpper_of_lower h
    rw [charIsLower_iff] at h
    rw [← Bool.not_eq_true, charIsLower_iff]
    omega
  · rw [char_toUpper_of_not_lower (Bool.not_eq_true _ |>.mp h)]
    exact Bool.not_eq_true _ |>.mp h

theorem char_toUpper_toUpper (c : Char) : c.toUpper.toUpper = c.toUpper :=
  char_toUpper_of_not_lower (char_isLower_toUpper c)

theorem char_isSeparator_toUpper {c : Char} (h : isSeparator c = false) :
    isSeparator c.toUpper = false := by
  by_cases hl : c.isLower = true
  · have := char_toNat_toUpper_of_lower hl
    rw [charIsLower_iff] at hl
    rw [← Bool.not_eq_true, charIsSeparator_iff]
    omega
  · rwa [char_toUpper_of_not_lower (Bool.not_eq_true _ |>.mp hl)]

theorem splitOnSeparators_sepFree {l : List Char} (h : ∀ c ∈ l, isSeparator c = false) :
    splitOnSeparators l = [l] := by
  induction l with
  | nil => rfl
  | cons c rest ih =>
    have hc : isSeparator c = false := h c (by simp)
    have hrest : ∀ x ∈ rest, isSeparator x = false := fun x hx => h x (by simp [hx])
    simp [splitOnSeparators, hc, ih hrest]

theorem splitOnSeparators_ne_nil (l : List Char) : splitOnSeparators l ≠ [] := by
  cases l with
  | nil => simp [splitOnSeparators]
  | cons c rest =>
    by_cases hc : isSeparator c = true
    · simp [splitOnSeparators, hc]
    · rw [Bool.not_eq_true] at hc
      simp only [splitOnSeparators, hc, Bool.false_eq_true, if_false]
      cases splitOnSeparators rest with
      | nil => simp
      | cons chunk chunks => simp

theorem splitOnSeparators_append_sep {w t : List Char} {sep : Char}
    (hw : ∀ c ∈ w, isSeparator c = false) (hs : isSeparator sep = true) :
    splitOnSeparators (w ++ sep :: t) = w :: splitOnSeparators t := by
  induction w with
  | nil => simp [splitOnSeparators, hs]
  | cons c w' ih =>
    have hc : isSeparator c = false := hw c (by simp)
    have hw' : ∀ x ∈ w', isSeparator x = false := fun x hx => hw x (by simp [hx])
    simp only [List.cons_append, splitOnSeparators, hc, Bool.false_eq_true, if_false,
      List.append_eq]
    rw [ih hw']

theorem splitOnSeparators_chunks_sepFree :
    ∀ {l : List Char}, ∀ ch ∈ splitOnSeparators l, ∀ c ∈ ch, isSeparator c = false := by
  intro l
  induction l with
  | nil =>
    intro ch hch c hc
    simp only [splitOnSeparators, List.mem_singleton] at hch
    subst hch
    simp at hc
  | cons x rest ih =>
    intro ch hch c hc
    by_cases hx : isSeparator x = true
    · simp only [splitOnSeparators, hx, if_true, List.mem_cons] at hch
      rcases hch with h1 | h2
      · subst h1; simp at hc
      · exact ih ch h2 c hc
    · rw [Bool.not_eq_true] at hx
      simp only [splitOnSeparators, hx, Bool.false_eq_true, if_false] at hch
      rcases hrec : splitOnSeparators rest with _ | ⟨chunk, chunks⟩
      · exact absurd hrec (splitOnSeparators_ne_nil rest)
      · rw [hrec] at hch
        simp only [List.mem_cons] at hch
        rcases hch with h1 | h2
        · subst h1
          rcases List.mem_cons.mp hc with h3 | h4
          · subst h3; exact hx
          · exact ih chunk (by rw [hrec]; simp) c h4
        · exact ih ch (by rw [hrec]; simp [h2]) c hc

theorem splitCaseAux_no_upper :
    ∀ {rest : List Char}, (∀ c ∈ rest, c.isUpper = false) →
      ∀ (prev : Char) (acc : List Char), splitCaseAux prev acc rest = [acc ++ rest] := by
  intro rest
  induction rest with
  | nil => intro _ prev acc; simp [splitCaseAux]
  | cons c rest' ih =>
    intro h prev acc
    have hc : c.isUpper = false := h c (by simp)
    have hb : caseBoundary prev c rest' = false := by
      simp [caseBoundary, hc]
    have hrest' : ∀ x ∈ rest', x.isUpper = false := fun x hx => h x (by simp [hx])
    simp only [splitCaseAux, hb, Bool.false_eq_true, if_false]
    rw [ih hrest']
    simp

theorem splitCase_no_upper {w : List Char} (hne : w ≠ [])
    (h : ∀ c ∈ w, c.isUpper = false) : splitCase w = [w] := by
  cases w with
  | nil => exact absurd rfl hne
  | cons c rest =>
    have hrest : ∀ x ∈ rest, x.isUpper = false := fun x hx => h x (by simp [hx])
    simp [splitCase, splitCaseAux_no_upper hrest]

theorem splitCaseAux_no_lower :
    ∀ {rest : List Char}, (∀ c ∈ rest, c.isLower = false) →
      ∀ {prev : Char}, prev.isLower = false →
      ∀ (acc : List Char), splitCaseAux prev acc rest = [acc ++ rest] := by
  intro rest
  induction rest with
  | nil => intro _ prev _ acc; simp [splitCaseAux]
  | cons c rest' ih =>
    intro h prev hp acc
    have hc : c.isLower = false := h c (by simp)
    have hrest' : ∀ x ∈ rest', x.isLower = false := fun x hx => h x (by simp [hx])
    have hb : caseBoundary prev c rest' = false := by
      simp only [caseBoundary, hp, Bool.false_or]
      cases hh : rest'.head? with
      | none => simp
      | some nxt =>
        have : nxt ∈ rest' := List.mem_of_mem_head? hh
        simp [hrest' nxt this]
    simp only [splitCaseAux, hb, Bool.false_eq_true, if_false]
    rw [ih hrest' hc]
    simp

theorem splitCase_no_lower {w : List Char} (hne : w ≠ [])
    (h : ∀ c ∈ w, c.isLower = false) : splitCase w = [w] := by
  cases w with
  | nil => exact absurd rfl hne
  | cons c rest =>
    have hc : c.isLower = false := h c (by simp)
    have hrest : ∀ x ∈ rest, x.isLower = false := fun x hx => h x (by simp [hx])
    simp [splitCase, splitCaseAux_no_lower hrest hc]

theorem splitCaseAux_ne_nil :
    ∀ {rest : List Char} {prev : Char} {acc : List Char}, acc ≠ [] →
      ∀ t ∈ splitCaseAux prev acc rest, t ≠ [] := by
  intro rest
  induction rest with
  | nil =>
    intro prev acc ha t ht
    simp only [splitCaseAux, List.mem_singleton] at ht
    subst ht; exact ha
  | cons c rest' ih =>
    intro prev acc ha t ht
    by_cases hb : caseBoundary prev c rest' = true
    · simp only [splitCaseAux, hb, if_true, List.mem_cons] at ht
      rcases ht with h1 | h2
      · subst h1; exact ha
      · exact ih (by simp) t h2
    · rw [Bool.not_eq_true] at hb
      simp only [splitCaseAux, hb, Bool.false_eq_true, if_false] at ht
      exact ih (by simp) t ht

theorem splitCase_ne_nil {w : List Char} : ∀ t ∈ splitCase w, t ≠ [] := by
  cases w with
  | nil => intro t ht; simp [splitCase] at ht
  | cons c rest =>
    intro t ht
    exact splitCaseAux_ne_nil (by simp) t ht

theorem splitCaseAux_chars :
    ∀ {rest : List Char} {prev : Char} {acc : List Char},
      ∀ t ∈ splitCaseAux prev acc rest, ∀ c ∈ t, c ∈ acc ∨ c ∈ rest := by
  intro rest
  induction rest with
  | nil =>
    intro prev acc t ht c hc
    simp only [splitCaseAux, List.mem_singleton] at ht
    subst ht; exact Or.inl hc
  | cons x rest' ih =>
    intro prev acc t ht c hc
    by_cases hb : caseBoundary prev x rest' = true
    · simp only [splitCaseAux, hb, if_true, List.mem_cons] at ht
      rcases ht with h1 | h2
      · subst h1; exact Or.inl hc
      · rcases ih t h2 c hc with h3 | h4
        · simp only [List.mem_singleton] at h3
          subst h3; simp
        · simp [h4]
    · rw [Bool.not_eq_true] at hb
      simp only [splitCaseAux, hb, Bool.false_eq_true, if_false] at ht
      rcases ih t ht c hc with h3 | h4
      · rcases List.mem_append.mp h3 with h5 | h6
        · exact Or.inl h5
        · simp only [List.mem_singleton] at h6
          subst h6; simp
      · simp [h4]

theorem splitCase_chars {w : List Char} : ∀ t ∈ splitCase w, ∀ c ∈ t, c ∈ w := by
  cases w with
  | nil => intro t ht; simp [splitCase] at ht
  | cons x rest =>
    intro t ht c hc
    rcases splitCaseAux_chars t ht c hc with h1 | h2
    · simp only [List.mem_singleton] at h1
      subst h1; simp
    · simp [h2]

theorem tokenize_token_sepFree {l : List Char} :
    ∀ t ∈ tokenize l, ∀ c ∈ t, isSeparator c = false := by
  intro t ht c hc
  simp only [tokenize, List.mem_flatten, List.mem_map] at ht
  rcases ht with ⟨ts, ⟨ch, hch, hts⟩, htts⟩
  subst hts
  exact splitOnSeparators_chunks_sepFree ch hch c (splitCase_chars t htts c hc)

theorem tokenize_token_ne_nil {l : List Char} : ∀ t ∈ tokenize l, t ≠ [] := by
  intro t ht
  simp only [tokenize, List.mem_flatten, List.mem_map] at ht
  rcases ht with ⟨ts, ⟨ch, hch, hts⟩, htts⟩
  subst hts
  exact splitCase_ne_nil t htts

theorem tokenize_joinSep {sep : Char} (hs : isSeparator sep = true) :
    ∀ {ws : List (List Char)}, ws ≠ [] →
      (∀ w ∈ ws, ∀ c ∈ w, isSeparator c = false) →
      (∀ w ∈ ws, splitCase w = [w]) →
      tokenize (joinSep sep ws) = ws := by
  intro ws
  induction ws with
  | nil => intro h; exact absurd rfl h
  | cons w ws' ih =>
    intro _ hsep hsplit
    have hw : ∀ c ∈ w, isSeparator c = false := hsep w (by simp)
    cases ws' with
    | nil =>
      simp only [joinSep, tokenize]
      rw [splitOnSeparators_sepFree hw]
      simp [hsplit w (by simp)]
    | cons w2 ws'' =>
      have hjoin : joinSep sep (w :: w2 :: ws'') = w ++ sep :: joinSep sep (w2 :: ws'') := rfl
      rw [hjoin]
      simp only [tokenize]
      rw [splitOnSeparators_append_sep hw hs]
      simp only [List.map_cons, List.flatten_cons]
      rw [hsplit w (by simp)]
      have ihr : tokenize (joinSep sep (w2 :: ws'')) = w2 :: ws'' := by
        apply ih (by simp)
        · intro x hx c hc; exact hsep x (by simp [hx]) c hc
        · intro x hx; exact hsplit x (by simp [hx])
      simp only [tokenize] at ihr
      rw [ihr]
      simp

theorem tokenize_nil : tokenize [] = [] := rfl

theorem joinSep_style_idem {sep : Char} (hs : isSeparator sep = true)
    {f : Char → Char}
    (hff : ∀ c, f (f c) = f c)
    (hfsep : ∀ c, isSeparator c = false → isSeparator (f c) = false)
    (hsplit : ∀ w : List Char, w ≠ [] →
      (∀ c ∈ w, isSeparator c = false) → splitCase (w.map f) = [w.map f])
    (l : List Char) :
    joinSep sep ((tokenize (joinSep sep ((tokenize l).map (List.map f)))).map (List.map f))
      = joinSep sep ((tokenize l).map (List.map f)) := by
  rcases htok : tokenize l with _ | ⟨t, ts⟩
  · simp [joinSep, tokenize_nil]
  · have hne : ((t :: ts).map (List.map f)) ≠ [] := by simp
    have hsep2 : ∀ w ∈ (t :: ts).map (List.map f), ∀ c ∈ w, isSeparator c = false := by
      intro w hw c hc
      rcases List.mem_map.mp hw with ⟨w0, hw0, hw0f⟩
      subst hw0f
      rcases List.mem_map.mp hc with ⟨c0, hc0, hc0f⟩
      subst hc0f
      apply hfsep
      exact tokenize_token_sepFree w0 (by rw [htok]; exact hw0) c0 hc0
    have hsplit2 : ∀ w ∈ (t :: ts).map (List.map f), splitCase w = [w] := by
      intro w hw
      rcases List.mem_map.mp hw with ⟨w0, hw0, hw0f⟩
      subst hw0f
      exact hsplit w0 (tokenize_token_ne_nil w0 (by rw [htok]; exact hw0))
        (fun c hc => tokenize_token_sepFree w0 (by rw [htok]; exact hw0) c hc)
    rw [tokenize_joinSep hs hne hsep2 hsplit2]
    congr 1
    rw [List.map_map]
    apply List.map_congr_left
    intro w _
    simp only [Function.comp_apply, List.map_map]
    apply List.map_congr_left
    intro c _
    simp only [Function.comp_apply]
    exact hff c

theorem convertCase_snake_idem (n : String) :
    convertCase .snake_case (convertCase .snake_case n) = convertCase .snake_case n := by
  show (⟨joinSep '_' ((tokenize (joinSep '_' ((tokenize n.data).map lowerWord))).map lowerWord)⟩ : String)
      = ⟨joinSep '_' ((tokenize n.data).map lowerWord)⟩
  congr 1
  show joinSep '_' ((tokenize (joinSep '_' ((tokenize n.data).map (List.map Char.toLower)))).map (List.map Char.toLower))
      = joinSep '_' ((tokenize n.data).map (List.map Char.toLower))
  apply joinSep_style_idem (by decide) char_toLower_toLower
    (fun c h => char_isSeparator_toLower h)
  intro w hw _
  apply splitCase_no_upper (by simp [hw])
  intro c hc
  rcases List.mem_map.mp hc with ⟨c0, _, h0⟩
  subst h0
  exact char_isUpper_toLower c0

theorem convertCase_kebab_idem (n : String) :
    convertCase .kebab_case (convertCase .kebab_case n) = convertCase .kebab_case n := by
  show (⟨joinSep '-' ((tokenize (joinSep '-' ((tokenize n.data).map lowerWord))).map lowerWord)⟩ : String)
      = ⟨joinSep '-' ((tokenize n.data).map lowerWord)⟩
  congr 1
  show joinSep '-' ((tokenize (joinSep '-' ((tokenize n.data).map (List.map Char.toLower)))).map (List.map Char.toLower))
      = joinSep '-' ((tokenize n.data).map (List.map Char.toLower))
  apply joinSep_style_idem (by decide) char_toLower_toLower
    (fun c h => char_isSeparator_toLower h)
  intro w hw _
  apply splitCase_no_upper (by simp [hw])
  intro c hc
  rcases List.mem_map.mp hc with ⟨c0, _, h0⟩
  subst h0
  exact char_isUpper_toLower c0

theorem convertCase_upper_idem (n : String) :
    convertCase .UPPER_CASE (convertCase .UPPER_CASE n) = convertCase .UPPER_CASE n := by
  show (⟨joinSep '_' ((tokenize (joinSep '_' ((tokenize n.data).map upperWord))).map upperWord)⟩ : String)
      = ⟨joinSep '_' ((tokenize n.data).map upperWord)⟩
  congr 1
  show joinSep '_' ((tokenize (joinSep '_' ((tokenize n.data).map (List.map Char.toUpper)))).map (List.map Char.toUpper))
      = joinSep '_' ((tokenize n.data).map (List.map Char.toUpper))
  apply joinSep_style_idem (by decide) char_toUpper_toUpper
    (fun c h => char_isSeparator_toUpper h)
  intro w hw _
  apply splitCase_no_lower (by simp [hw])
  intro c hc
  rcases List.mem_map.mp hc with ⟨c0, _, h0⟩
  subst h0
  exact char_isLower_toUpper c0

/-- C9 (counterexample): `convert(s, convert(s, n)) = convert(s, n)` fails
for `PascalCase` at `"a_b"` (`"AB"` re-converts to `"Ab"`) and for
`camelCase` at `"a_b_c"` (`"aBC"` re-converts to `"aBc"`). -/
theorem claim9_counterexample :
  convertCase .PascalCase (convertCase .PascalCase "a_b") ≠ convertCase .PascalCase "a_b" ∧
  convertCase .camelCase (convertCase .camelCase "a_b_c") ≠ convertCase .camelCase "a_b_c" := by
  decide

theorem extensionCheck_forall (options : MatchDocumentFilenameRuleConfig) (ext : String) :
    ∀ d ∈ extensionCheck options ext,
      d.messageId = .MATCH_EXTENSION ∧ d.loc = REPORT_ON_FIRST_CHARACTER := by
  intro d hd
  unfold extensionCheck at hd
  split at hd
  · split at hd
    · simp only [List.mem_singleton] at hd
      subst hd
      exact ⟨rfl, rfl⟩
    · simp at hd
  · simp at hd

theorem styleCheck_forall (options : MatchDocumentFilenameRuleConfig) (ext fn : String)
    (doc : List Definition) :
    ∀ d ∈ styleCheck options ext fn doc,
      d.messageId = .MATCH_STYLE ∧ d.loc = REPORT_ON_FIRST_CHARACTER := by
  intro d hd
  unfold styleCheck at hd
  split at hd
  · simp at hd
  · split at hd
    · simp at hd
    · split at hd
      · simp at hd
      · split at hd
        · simp at hd
        · simp only [] at hd
          split at hd
          · simp only [List.mem_singleton] at hd
            subst hd
            exact ⟨rfl, rfl⟩
          · simp at hd

theorem extensionCheck_length (options : MatchDocumentFilenameRuleConfig) (ext : String) :
    (extensionCheck options ext).length ≤ 1 := by
  unfold extensionCheck
  split
  · split <;> simp
  · simp

theorem styleCheck_length (options : MatchDocumentFilenameRuleConfig) (ext fn : String)
    (doc : List Definition) : (styleCheck options ext fn doc).length ≤ 1 := by
  unfold styleCheck
  split
  · simp
  · split
    · simp
    · split
      · simp
      · split
        · simp
        · simp only []
          split <;> simp

theorem documentRule_filter_style (options : MatchDocumentFilenameRuleConfig) (ext fn : String)
    (doc : List Definition) :
    (documentRule options ext fn doc).filter (fun d => decide (d.messageId = .MATCH_STYLE))
      = styleCheck options ext fn doc := by
  unfold documentRule
  rw [List.filter_append]
  have h1 : (extensionCheck options ext).filter (fun d => decide (d.messageId = .MATCH_STYLE)) = [] := by
    rw [List.filter_eq_nil_iff]
    intro d hd
    have := (extensionCheck_forall options ext d hd).1
    simp [this]
  have h2 : (styleCheck options ext fn doc).filter (fun d => decide (d.messageId = .MATCH_STYLE))
      = styleCheck options ext fn doc := by
    rw [List.filter_eq_self]
    intro d hd
    have := (styleCheck_forall options ext fn doc d hd).1
    simp [this]
  rw [h1, h2, List.nil_append]

theorem documentRule_filter_extension (options : MatchDocumentFilenameRuleConfig) (ext fn : String)
    (doc : List Definition) :
    (documentRule options ext fn doc).filter (fun d => decide (d.messageId = .MATCH_EXTENSION))
      = extensionCheck options ext := by
  unfold documentRule
  rw [List.filter_append]
  have h1 : (extensionCheck options ext).filter (fun d => decide (d.messageId = .MATCH_EXTENSION))
      = extensionCheck options ext := by
    rw [List.filter_eq_self]
    intro d hd
    have := (extensionCheck_forall options ext d hd).1
    simp [this]
  have h2 : (styleCheck options ext fn doc).filter (fun d => decide (d.messageId = .MATCH_EXTENSION)) = [] := by
    rw [List.filter_eq_nil_iff]
    intro d hd
    have := (styleCheck_forall options ext fn doc d hd).1
    simp [this]
  rw [h1, h2, List.append_nil]

theorem styleCheck_eq (options : MatchDocumentFilenameRuleConfig) (ext fn : String)
    (doc : List Definition) {node : Definition} {docName : String} {rawOption : RuleOption}
    (hsel : selectGoverningDefinition doc = some node)
    (hname : definitionName node = some docName)
    (hne : docName ≠ "")
    (hopt : getDocTypeOption options (definitionDocType node) = some rawOption) :
    styleCheck options ext fn doc =
      (if buildExpectedFilename (normalizeOption rawOption) docName fn (jsOrString options.fileExtension ext)
          ≠ fn ++ jsOrString options.fileExtension ext then
        [{ messageId := .MATCH_STYLE, loc := REPORT_ON_FIRST_CHARACTER,
           data := [("expectedFilename",
                      buildExpectedFilename (normalizeOption rawOption) docName fn
                        (jsOrString options.fileExtension ext)),
                    ("filename", fn ++ jsOrString options.fileExtension ext)] }]
      else []) := by
  unfold styleCheck
  simp only [hsel, hname, hopt, hne, if_false, if_neg]

theorem find?_append_cons {α : Type} {p : α → Bool} :
    ∀ {pre : List α} {d : α} {post : List α},
      (∀ x ∈ pre, p x = false) → p d = true →
      (pre ++ d :: post).find? p = some d := by
  intro pre
  induction pre with
  | nil =>
    intro d post _ hd
    simp [List.find?_cons_of_pos _ hd]
  | cons a pre' ih =>
    intro d post hpre hd
    have ha : p a = false := hpre a (by simp)
    rw [List.cons_append, List.find?_cons_of_neg _ (by simp [ha])]
    exact ih (fun x hx => hpre x (by simp [hx])) hd

/-- C1 (counterexample): with `fileExtension: ".graphql"` configured, file
`me.gql`, and a `matchDocumentStyle` query policy, the expected filename per
§4.4 (`me.graphql`) differs from `actualBaseName + actualExtension`
(`me.gql`), yet the rule emits no `MATCH_STYLE` diagnostic: the code
compares against `filename + expectedExtension`, not the actual extension. -/
theorem claim1_counterexample :
    (buildExpectedFilename (normalizeOption (.asString .matchDocumentStyle)) "me" "me"
        (jsOrString (some ".graphql") ".gql") ≠ "me" ++ ".gql")
    ∧ (documentRule
        { fileExtension := some ".graphql", query := some (.asString .matchDocumentStyle) }
        ".gql" "me" [.operationDefinition .query (some "me")]).all
        (fun d => decide (d.messageId ≠ MessageId.MATCH_STYLE)) = true := by
  decide

/-- C1 (amended): for every document whose classified type has a configured
policy, the style check compares the expected filename against
`actualBaseName + effectiveExtension`, and exactly when the two differ it
emits one `MATCH_STYLE` diagnostic whose `filename` parameter is
`actualBaseName + effectiveExtension` and whose `expectedFilename`
parameter is the expected filename. -/
theorem claim1_style_check_comparison (options : MatchDocumentFilenameRuleConfig)
    (ext fn : String) (doc : List Definition)
    {node : Definition} {docName : String} {rawOption : RuleOption}
    (hsel : selectGoverningDefinition doc = some node)
    (hname : definitionName node = some docName)
    (hne : docName ≠ "")
    (hopt : getDocTypeOption options (definitionDocType node) = some rawOption) :
    (documentRule options ext fn doc).filter (fun d => decide (d.messageId = .MATCH_STYLE)) =
      (if buildExpectedFilename (normalizeOption rawOption) docName fn
            (jsOrString options.fileExtension ext)
          ≠ fn ++ jsOrString options.fileExtension ext then
        [{ messageId := .MATCH_STYLE, loc := REPORT_ON_FIRST_CHARACTER,
           data := [("expectedFilename",
                      buildExpectedFilename (normalizeOption rawOption) docName fn
                        (jsOrString options.fileExtension ext)),
                    ("filename", fn ++ jsOrString options.fileExtension ext)] }]
      else []) := by
  rw [documentRule_filter_style]
  exact styleCheck_eq options ext fn doc hsel hname hne hopt

/-- Witness for C1 (amended) at a concrete mismatching input. -/
theorem claim1_style_check_comparison_witness :
    (documentRule { query := some (.asString .PascalCase) } ".gql" "user-by-id"
      [.operationDefinition .query (some "UserById")]).filter
        (fun d => decide (d.messageId = .MATCH_STYLE)) =
      [{ messageId := .MATCH_STYLE, loc := REPORT_ON_FIRST_CHARACTER,
         data := [("expectedFilename", "UserById.gql"), ("filename", "user-by-id.gql")] }] := by
  rw [@claim1_style_check_comparison { query := some (.asString .PascalCase) } ".gql" "user-by-id"
    [.operationDefinition .query (some "UserById")]
    (.operationDefinition .query (some "UserById")) "UserById" (.asString .PascalCase)
    (by decide) (by decide) (by decide) (by decide)]
  decide

/-- C2: for a policy object with no `style` set, the base of the expected
filename is the file's actual basename unchanged — no case conversion —
so the expected filename is `(prefix or "") + actualBaseName +
(suffix or "") + effectiveExtension`. -/
theorem claim2_unset_style_keeps_basename (options : MatchDocumentFilenameRuleConfig)
    (ext fn : String) (doc : List Definition)
    {node : Definition} {docName : String} {schema : PropertySchema}
    (hsel : selectGoverningDefinition doc = some node)
    (hname : definitionName node = some docName)
    (hne : docName ≠ "")
    (hopt : getDocTypeOption options (definitionDocType node) = some (.asObject schema))
    (hstyle : schema.style = none) :
    (documentRule options ext fn doc).filter (fun d => decide (d.messageId = .MATCH_STYLE)) =
      (if (jsOrString schema.prefix_ "") ++ fn ++ (jsOrString schema.suffix "")
            ++ jsOrString options.fileExtension ext
          ≠ fn ++ jsOrString options.fileExtension ext then
        [{ messageId := .MATCH_STYLE, loc := REPORT_ON_FIRST_CHARACTER,
           data := [("expectedFilename",
                      (jsOrString schema.prefix_ "") ++ fn ++ (jsOrString schema.suffix "")
                        ++ jsOrString options.fileExtension ext),
                    ("filename", fn ++ jsOrString options.fileExtension ext)] }]
      else []) := by
  rw [documentRule_filter_style, styleCheck_eq options ext fn doc hsel hname hne hopt]
  simp [normalizeOption, buildExpectedFilename, hstyle]

/-- Witness for C2: a prefix-only query policy wraps the existing
basename `me` as `p-me.gql` without touching its case. -/
theorem claim2_unset_style_keeps_basename_witness :
    (documentRule { query := some (.asObject { prefix_ := some "p-" }) } ".gql" "me"
      [.operationDefinition .query (some "me")]).filter
        (fun d => decide (d.messageId = .MATCH_STYLE)) =
      [{ messageId := .MATCH_STYLE, loc := REPORT_ON_FIRST_CHARACTER,
         data := [("expectedFilename", "p-me.gql"), ("filename", "me.gql")] }] := by
  rw [@claim2_unset_style_keeps_basename { query := some (.asObject { prefix_ := some "p-" }) }
    ".gql" "me" [.operationDefinition .query (some "me")]
    (.operationDefinition .query (some "me")) "me" { prefix_ := some "p-" }
    (by decide) (by decide) (by decide) (by decide) (by decide)]
  decide

/-- C3: the governing definition is the first `OperationDefinition` in
document order when one exists — even when a `FragmentDefinition` appears
earlier — and otherwise the first `FragmentDefinition`. -/
theorem claim3_operation_precedence :
    (∀ (pre post : List Definition) (d : Definition),
      (∀ x ∈ pre, isOperationDefinition x = false) →
      isOperationDefinition d = true →
      selectGoverningDefinition (pre ++ d :: post) = some d) ∧
    (∀ (pre post : List Definition) (d : Definition),
      (∀ x ∈ pre ++ d :: post, isOperationDefinition x = false) →
      (∀ x ∈ pre, isFragmentDefinition x = false) →
      isFragmentDefinition d = true →
      selectGoverningDefinition (pre ++ d :: post) = some d) := by
  constructor
  · intro pre post d hpre hd
    unfold selectGoverningDefinition
    rw [find?_append_cons hpre hd]
    rfl
  · intro pre post d hall hpre hd
    unfold selectGoverningDefinition
    have h1 : (pre ++ d :: post).find? isOperationDefinition = none := by
      rw [List.find?_eq_none]
      intro x hx
      simp [hall x hx]
    have h2 : (pre ++ d :: post).find? isFragmentDefinition = some d :=
      find?_append_cons hpre hd
    rw [h1, h2]
    rfl

/-- Witness for C3: an operation is selected past an earlier fragment,
and a fragment is selected when no operation exists. -/
theorem claim3_operation_precedence_witness :
    selectGoverningDefinition
        [.fragmentDefinition "F", .operationDefinition .query (some "Q")]
      = some (.operationDefinition .query (some "Q")) ∧
    selectGoverningDefinition [.otherDefinition, .fragmentDefinition "F"]
      = some (.fragmentDefinition "F") :=
  ⟨claim3_operation_precedence.1 [.fragmentDefinition "F"] [] _ (by decide) (by decide),
   claim3_operation_precedence.2 [.otherDefinition] [] _ (by decide) (by decide) (by decide)⟩

/-- C4 (counterexample): a document with no operation and no fragment
definition still receives a `MATCH_EXTENSION` diagnostic when
`fileExtension` is configured and differs (the extension check runs before
the governing-definition lookup; the rule's own `type Post` example
documents this). -/
theorem claim4_counterexample :
    (([Definition.otherDefinition] : List Definition).all
        (fun d => !isOperationDefinition d && !isFragmentDefinition d) = true)
    ∧ documentRule { fileExtension := some ".graphql" } ".gql" "post" [.otherDefinition] =
        [{ messageId := .MATCH_EXTENSION, loc := REPORT_ON_FIRST_CHARACTER,
           data := [("fileExtension", ".gql"), ("expectedFileExtension", ".graphql")] }]
    ∧ documentRule { fileExtension := some ".graphql" } ".gql" "post" [.otherDefinition] ≠ [] := by
  decide

/-- C4 (amended): for every configuration and every document with no
operation and no fragment definition, the output is exactly the extension
check's diagnostics (so no `MATCH_STYLE` is ever emitted, but
`MATCH_EXTENSION` may still fire). -/
theorem claim4_no_definitions_no_style (options : MatchDocumentFilenameRuleConfig)
    (ext fn : String) (doc : List Definition)
    (h : ∀ d ∈ doc, isOperationDefinition d = false ∧ isFragmentDefinition d = false) :
    documentRule options ext fn doc = extensionCheck options ext := by
  have hsel : selectGoverningDefinition doc = none := by
    unfold selectGoverningDefinition
    rw [List.find?_eq_none.mpr (fun x hx => by simp [(h x hx).1]),
        List.find?_eq_none.mpr (fun x hx => by simp [(h x hx).2])]
    rfl
  unfold documentRule styleCheck
  rw [hsel]
  simp

/-- Witness for C4 (amended) at a concrete definition-free document. -/
theorem claim4_no_definitions_no_style_witness :
    documentRule { fileExtension := some ".graphql" } ".gql" "post" [.otherDefinition]
      = extensionCheck { fileExtension := some ".graphql" } ".gql" :=
  claim4_no_definitions_no_style _ _ _ _ (by decide)

/-- C5: the expected filename is `(prefix or "") + base + (suffix or "") +
effectiveExtension`, where `effectiveExtension` is the configured
`fileExtension` when one is configured (and truthy) and otherwise the
actual extension. -/
theorem claim5_expected_filename_composition (options : MatchDocumentFilenameRuleConfig)
    (ext fn : String) (doc : List Definition)
    {node : Definition} {docName : String} {rawOption : RuleOption}
    (hsel : selectGoverningDefinition doc = some node)
    (hname : definitionName node = some docName)
    (hne : docName ≠ "")
    (hopt : getDocTypeOption options (definitionDocType node) = some rawOption) :
    (documentRule options ext fn doc).filter (fun d => decide (d.messageId = .MATCH_STYLE)) =
      (let effectiveExtension : String :=
         match options.fileExtension with
         | some configured => if configured = "" then ext else configured
         | none => ext
       let base : String :=
         match (normalizeOption rawOption).style with
         | some style => if style = .matchDocumentStyle then docName else convertCase style docName
         | none => fn
       let expected : String :=
         (jsOrString (normalizeOption rawOption).prefix_ "") ++ base
           ++ (jsOrString (normalizeOption rawOption).suffix "") ++ effectiveExtension
       if expected ≠ fn ++ effectiveExtension then
         [{ messageId := .MATCH_STYLE, loc := REPORT_ON_FIRST_CHARACTER,
            data := [("expectedFilename", expected), ("filename", fn ++ effectiveExtension)] }]
       else []) := by
  rw [documentRule_filter_style, styleCheck_eq options ext fn doc hsel hname hne hopt]
  rcases hfe : options.fileExtension with _ | configured
  · rcases hst : (normalizeOption rawOption).style with _ | st <;>
      simp [buildExpectedFilename, jsOrString, hst]
  · by_cases hc : configured = "" <;>
      rcases hst : (normalizeOption rawOption).style with _ | st <;>
      simp [buildExpectedFilename, jsOrString, hst, hc]

/-- Witness for C5: with `fileExtension: ".graphql"` configured the
effective extension is `.graphql` even though the file's is `.gql`. -/
theorem claim5_expected_filename_composition_witness :
    (documentRule
      { fileExtension := some ".graphql",
        fragment := some (.asObject { style := some .kebab_case, suffix := some ".fragment" }) }
      ".gql" "user-fields.fragment" [.fragmentDefinition "user_fields"]).filter
      (fun d => decide (d.messageId = .MATCH_STYLE)) = [] := by
  rw [@claim5_expected_filename_composition
    { fileExtension := some ".graphql",
      fragment := some (.asObject { style := some .kebab_case, suffix := some ".fragment" }) }
    ".gql" "user-fields.fragment" [.fragmentDefinition "user_fields"]
    (.fragmentDefinition "user_fields") "user_fields"
    (.asObject { style := some .kebab_case, suffix := some ".fragment" })
    (by decide) (by decide) (by decide) (by decide)]
  decide

/-- C6: a `MATCH_EXTENSION` diagnostic is emitted exactly when
`fileExtension` is configured (and truthy) and differs from the actual
extension, carrying the actual extension as `fileExtension` and the
configured one as `expectedFileExtension`; the check is independent of the
document (hence of the style check), and both checks can fire together. -/
theorem claim6_extension_check_independent :
    (∀ (options : MatchDocumentFilenameRuleConfig) (ext fn : String) (doc : List Definition),
      (documentRule options ext fn doc).filter (fun d => decide (d.messageId = .MATCH_EXTENSION)) =
        match options.fileExtension with
        | some configured =>
          if configured ≠ "" ∧ configured ≠ ext then
            [{ messageId := .MATCH_EXTENSION, loc := REPORT_ON_FIRST_CHARACTER,
               data := [("fileExtension", ext), ("expectedFileExtension", configured)] }]
          else []
        | none => []) ∧
    documentRule { fileExtension := some ".graphql", query := some (.asString .camelCase) }
        ".gql" "foo-bar" [.operationDefinition .query (some "fooBar")] =
      [{ messageId := .MATCH_EXTENSION, loc := REPORT_ON_FIRST_CHARACTER,
         data := [("fileExtension", ".gql"), ("expectedFileExtension", ".graphql")] },
       { messageId := .MATCH_STYLE, loc := REPORT_ON_FIRST_CHARACTER,
         data := [("expectedFilename", "fooBar.graphql"), ("filename", "foo-bar.graphql")] }] := by
  constructor
  · intro options ext fn doc
    rw [documentRule_filter_extension]
    rfl
  · decide

/-- C7: no `MATCH_STYLE` diagnostic is emitted when the selected governing
definition has no name (anonymous operation) — even if a named fragment
exists elsewhere in the document — nor when no policy is configured for
the classified document type. -/
theorem claim7_skip_anonymous_and_unconfigured :
    (∀ (options : MatchDocumentFilenameRuleConfig) (ext fn : String) (doc : List Definition)
       (node : Definition),
      selectGoverningDefinition doc = some node →
      definitionName node = none →
      (documentRule options ext fn doc).filter (fun d => decide (d.messageId = .MATCH_STYLE)) = []) ∧
    (∀ (options : MatchDocumentFilenameRuleConfig) (ext fn : String) (doc : List Definition)
       (node : Definition) (docName : String),
      selectGoverningDefinition doc = some node →
      definitionName node = some docName →
      getDocTypeOption options (definitionDocType node) = none →
      (documentRule options ext fn doc).filter (fun d => decide (d.messageId = .MATCH_STYLE)) = []) := by
  constructor
  · intro options ext fn doc node hsel hname
    rw [documentRule_filter_style]
    unfold styleCheck
    simp [hsel, hname]
  · intro options ext fn doc node docName hsel hname hopt
    rw [documentRule_filter_style]
    unfold styleCheck
    simp only [hsel, hname, hopt]
    by_cases h : docName = "" <;> simp [h]

/-- Witness for C7: an anonymous query beside a named fragment under a
configured query policy, and a named query with only a fragment policy
configured — neither yields a `MATCH_STYLE` diagnostic. -/
theorem claim7_skip_anonymous_and_unconfigured_witness :
    (documentRule { query := some (.asString .PascalCase) } ".gql" "file"
       [.operationDefinition .query none, .fragmentDefinition "NamedFrag"]).filter
       (fun d => decide (d.messageId = .MATCH_STYLE)) = [] ∧
    (documentRule { fragment := some (.asString .PascalCase) } ".gql" "file"
       [.operationDefinition .query (some "Me")]).filter
       (fun d => decide (d.messageId = .MATCH_STYLE)) = [] :=
  ⟨claim7_skip_anonymous_and_unconfigured.1 _ ".gql" "file" _
      (.operationDefinition .query none) (by decide) (by decide),
   claim7_skip_anonymous_and_unconfigured.2 _ ".gql" "file" _
      (.operationDefinition .query (some "Me")) "Me" (by decide) (by decide) (by decide)⟩

/-- C8: with `style = matchDocumentStyle` the base of the expected
filename is the document's declared name verbatim (no tokenization or
case conversion), which differs from the unset-style fallback that keeps
the file's existing basename. -/
theorem claim8_matchDocumentStyle_passthrough (p s : Option String) (docName fn ext2 : String) :
    buildExpectedFilename { style := some .matchDocumentStyle, suffix := s, prefix_ := p }
        docName fn ext2
      = (jsOrString p "") ++ docName ++ (jsOrString s "") ++ ext2 ∧
    buildExpectedFilename { style := none, suffix := s, prefix_ := p } docName fn ext2
      = (jsOrString p "") ++ fn ++ (jsOrString s "") ++ ext2 :=
  ⟨rfl, rfl⟩

/-- C9 (amended): case conversion is idempotent for `snake_case`,
`UPPER_CASE`, `kebab-case` and `matchDocumentStyle`; it is not idempotent
for `camelCase` and `PascalCase` (adjacent single-letter words merge into
an acronym run that re-tokenizes differently). -/
theorem claim9_convert_idempotent_except_camel_pascal (s : CaseStyle) (n : String)
    (h1 : s ≠ .camelCase) (h2 : s ≠ .PascalCase) :
    convertCase s (convertCase s n) = convertCase s n := by
  cases s with
  | camelCase => exact absurd rfl h1
  | PascalCase => exact absurd rfl h2
  | snake_case => exact convertCase_snake_idem n
  | UPPER_CASE => exact convertCase_upper_idem n
  | kebab_case => exact convertCase_kebab_idem n
  | matchDocumentStyle => rfl

/-- Witness for C9 (amended) at a concrete style and name. -/
theorem claim9_convert_idempotent_witness :
    convertCase .snake_case (convertCase .snake_case "XMLHttpRequest")
      = convertCase .snake_case "XMLHttpRequest" :=
  claim9_convert_idempotent_except_camel_pascal .snake_case "XMLHttpRequest"
    (by decide) (by decide)

/-- C10: one validation pass emits at most one `MATCH_EXTENSION` and at
most one `MATCH_STYLE` diagnostic (at most two in total), and every
emitted diagnostic is anchored at the document's first character. -/
theorem claim10_diagnostic_bounds (options : MatchDocumentFilenameRuleConfig)
    (ext fn : String) (doc : List Definition) :
    ((documentRule options ext fn doc).filter
        (fun d => decide (d.messageId = .MATCH_EXTENSION))).length ≤ 1 ∧
    ((documentRule options ext fn doc).filter
        (fun d => decide (d.messageId = .MATCH_STYLE))).length ≤ 1 ∧
    (documentRule options ext fn doc).length ≤ 2 ∧
    (documentRule options ext fn doc).all
        (fun d => decide (d.loc = REPORT_ON_FIRST_CHARACTER)) = true := by
  refine ⟨?_, ?_, ?_, ?_⟩
  · rw [documentRule_filter_extension]
    exact extensionCheck_length options ext
  · rw [documentRule_filter_style]
    exact styleCheck_length options ext fn doc
  · unfold documentRule
    rw [List.length_append]
    have h1 := extensionCheck_length options ext
    have h2 := styleCheck_length options ext fn doc
    omega
  · rw [List.all_eq_true]
    intro d hd
    unfold documentRule at hd
    rcases List.mem_append.mp hd with h | h
    · simp [(extensionCheck_forall options ext d h).2]
    · simp [(styleCheck_forall options ext fn doc d h).2]
